import Mathlib

/-!
Shallow embedding of the molecular-complexity calculator
(src/molecular_complexity/complexity.py) together with proofs about it.

The numeric pipeline (entropies, logarithms, powers) is modelled over the
real numbers; Python floats become elements of the real field, float NaN
results become the value none of Option, and Python exceptions become the
error branch of Except.  Lists model Python lists, and the insertion-ordered
Python dict of neighbors becomes an association list.
-/

set_option maxHeartbeats 1000000

/-- Atom types are (symbol, total degree, non-hydrogen degree), mirroring the
alias AtomType in the source.  The degree fields live in the integers since
Python int subtraction is unstructured. -/
abbrev AtomType := String × ℤ × ℤ

/-- Atoms are (atom index, atom type), mirroring the alias Atom in the source. -/
abbrev Atom := ℕ × AtomType

/-- The neighbor dictionary of the source, as an insertion-ordered
association list from atoms to their neighbor lists. -/
abbrev AtomDict := List (Atom × List Atom)

/-- An atom path is a tuple of atom types (length 2 or 3 in practice). -/
abbrev AtomPath := List AtomType

/-- The data the external toolkit exposes for one atom: the results of
GetSymbol, GetTotalDegree, GetTotalNumHs (includeNeighbors), and the indices
returned by GetNeighbors. -/
structure AtomSpec where
  symbol : String
  degree : ℤ
  hCount : ℤ
  nbrs : List ℕ
deriving DecidableEq

/-- A hydrogen-explicit molecular graph: the ordered atom list of the
external Mol object, where GetIdx of an atom is its list position. -/
structure Mol where
  atoms : List AtomSpec
deriving DecidableEq

/-- Result triple of the core calculation, mirroring the NamedTuple of the
source. -/
structure MolecularComplexity where
  cm : ℝ
  cm_star : ℝ
  cse : ℝ

/-- Result triple of the string entry point, where each float may be NaN:
none stands for NaN, some x for an ordinary float value x. -/
structure MolecularComplexityF where
  cm : Option ℝ
  cm_star : Option ℝ
  cse : Option ℝ

/-- The all-NaN result MolecularComplexity(np.nan, np.nan, np.nan). -/
def nan_triple : MolecularComplexityF := ⟨none, none, none⟩

/-- Wrap an ordinary (NaN-free) result of the core calculation. -/
def of_result (r : MolecularComplexity) : MolecularComplexityF :=
  ⟨some r.cm, some r.cm_star, some r.cse⟩

/-- Embeds get_atom_type: (symbol, total degree, total degree minus hydrogen
count). -/
def get_atom_type (a : AtomSpec) : AtomType :=
  (a.symbol, a.degree, a.degree - a.hCount)

/-- Embeds the generator non_h_items: the dictionary items whose key is a
non-hydrogen atom, in dictionary order. -/
def non_h_items (d : AtomDict) : AtomDict :=
  d.filter (fun pr => pr.1.2.1 ≠ "H")

/-- Dictionary access neighbors[nb]: the value of the first entry with the
given key (the empty list when the key is absent; in every use below the key
is present). -/
def lookupD (d : AtomDict) (a : Atom) : List Atom :=
  match d.find? (fun pr => pr.1 = a) with
  | some pr => pr.2
  | none => []

/-- Embeds the inner loop of collect_atom_paths: starting from the empty
list, append for each neighbor either the single length-2 path or the
length-3 paths through that neighbor. -/
def accumulate_paths (neighbors : AtomDict) (atom : Atom) (nbs : List Atom) :
    List AtomPath :=
  nbs.foldl
    (fun paths nb =>
      if nb.2.1 = "H" ∨ lookupD neighbors nb = [atom] then
        paths ++ [[atom.2, nb.2]]
      else
        paths ++ ((lookupD neighbors nb).filter (fun nb2 => nb2 ≠ atom)).map
          (fun nb2 => [atom.2, nb.2, nb2.2]))
    []

/-- Embeds collect_atom_paths: the list of atom-path lists, one per
non-hydrogen atom of the dictionary, in dictionary order. -/
def collect_atom_paths (neighbors : AtomDict) : List (List AtomPath) :=
  (non_h_items neighbors).map (fun pr => accumulate_paths neighbors pr.1 pr.2)

/-- Emission of paths for one neighbor B of a root atom A, written after the
wording of the specification (section 4.3): a hydrogen neighbor or a leaf
bonded solely to A emits the single length-2 path, any other neighbor emits
one length-3 path per neighbor C distinct from A. -/
def spec_neighbor_emission (neighbors : AtomDict) (atom nb : Atom) :
    List AtomPath :=
  if nb.2.1 = "H" ∨ lookupD neighbors nb = [atom] then
    [[atom.2, nb.2]]
  else
    ((lookupD neighbors nb).filter (fun c => c ≠ atom)).map
      (fun c => [atom.2, nb.2, c.2])

/-- Distinct values of a list in first-occurrence order: the key sequence of
collections.Counter. -/
def keysOf {α : Type} [DecidableEq α] : List α → List α
  | [] => []
  | x :: xs => x :: keysOf (xs.filter (fun y => y ≠ x))
termination_by l => l.length
decreasing_by
  simp only [List.length_cons]
  exact Nat.lt_succ_of_le (List.length_filter_le _ _)

/-- Embeds fractional_occurrence: counter values divided by the input
length, one entry per distinct value in first-occurrence order. -/
noncomputable def fractional_occurrence {α : Type} [DecidableEq α]
    (data : List α) : List ℝ :=
  (keysOf data).map (fun k => (data.count k : ℝ) / data.length)

/-- Lexicographic strict comparison of atom types, matching Python tuple
comparison of (str, int, int) triples. -/
def typeLtB (a b : AtomType) : Bool :=
  decide (a.1 < b.1) ||
    (a.1 == b.1 &&
      (decide (a.2.1 < b.2.1) || (a.2.1 == b.2.1 && decide (a.2.2 < b.2.2))))

/-- Lexicographic comparison of atom paths (Python tuple comparison, where a
proper prefix sorts first). -/
def pathLeB : AtomPath → AtomPath → Bool
  | [], _ => true
  | _ :: _, [] => false
  | a :: ta, b :: tb => typeLtB a b || (a == b && pathLeB ta tb)

/-- Embeds tuple(sorted(paths)): the ascending sort of the path list of one
atom, i.e. its canonical atom environment. -/
def sortPaths (l : List AtomPath) : List AtomPath :=
  l.insertionSort (fun p q => pathLeB p q = true)

/-- The atom record at a given index (the source only ever queries indices
of existing atoms). -/
def atomAt (m : Mol) (i : ℕ) : AtomSpec :=
  m.atoms.getD i ⟨"", 0, 0, []⟩

/-- Atom type of the atom at a given index. -/
def typeAt (m : Mol) (i : ℕ) : AtomType :=
  get_atom_type (atomAt m i)

/-- Element symbol of the atom at a given index. -/
def symAt (m : Mol) (i : ℕ) : String :=
  (atomAt m i).symbol

/-- Neighbor indices of the atom at a given index. -/
def nbrsAt (m : Mol) (i : ℕ) : List ℕ :=
  (atomAt m i).nbrs

/-- Embeds the list comprehension atoms = [(atom.GetIdx(), get_atom_type(atom))
for atom in mol.GetAtoms()]. -/
def atomsList (m : Mol) : List Atom :=
  (List.range m.atoms.length).map (fun i => (i, typeAt m i))

/-- Embeds the neighbors dictionary comprehension: each atom maps to the
atoms-list entries of its neighbor indices, in atom order. -/
def neighborsMap (m : Mol) : AtomDict :=
  (atomsList m).map
    (fun a => (a, (atomAt m a.1).nbrs.map
      (fun j => (atomsList m).getD j (0, ("", 0, 0)))))

/-- The per-molecule list atom_paths of the source. -/
def atom_paths_of (m : Mol) : List (List AtomPath) :=
  collect_atom_paths (neighborsMap m)

/-- Embeds one entry of the cas array: minus the summed p*log2 p terms of
the fractional occurrences, plus log2 of the number of paths. -/
noncomputable def ca_of (paths : List AtomPath) : ℝ :=
  -(((fractional_occurrence paths).map (fun p => p * Real.logb 2 p)).sum) +
    Real.logb 2 paths.length

/-- The cas array of the source, one entry per non-hydrogen atom. -/
noncomputable def cas_of (m : Mol) : List ℝ :=
  (atom_paths_of m).map ca_of

/-- Embeds cm = np.sum(cas). -/
noncomputable def cm_of (m : Mol) : ℝ :=
  (cas_of m).sum

/-- Embeds cm_star = np.log2(np.sum(2 ** cas)). -/
noncomputable def cm_star_of (m : Mol) : ℝ :=
  Real.logb 2 (((cas_of m).map (fun c => (2 : ℝ) ^ c)).sum)

/-- Embeds atom_environments = [tuple(sorted(paths)) for paths in atom_paths]. -/
def atom_environments_of (m : Mol) : List (List AtomPath) :=
  (atom_paths_of m).map sortPaths

/-- Embeds cse = -np.sum(qi * np.log2(qi)) over the fractional occurrences of
the atom environments. -/
noncomputable def cse_of (m : Mol) : ℝ :=
  -(((fractional_occurrence (atom_environments_of m)).map
      (fun q => q * Real.logb 2 q)).sum)

/-- Embeds calculate_molecular_complexity, the graph-level entry point. -/
noncomputable def calculate_molecular_complexity (m : Mol) : MolecularComplexity :=
  ⟨cm_of m, cm_star_of m, cse_of m⟩

/-- The body and the handler of molecular_complexity, with all three
collaborators explicit: parse models Chem.MolFromSmiles, addHs models
Chem.AddHs, and core models the call of the graph-level computation inside
the try block.  Any error of any stage is caught and becomes the NaN
triple. -/
def molecular_complexityGen {ε : Type} (parse : String → Except ε Mol)
    (addHs : Mol → Except ε Mol) (core : Mol → Except ε MolecularComplexity)
    (s : String) : MolecularComplexityF :=
  match (do
      let m ← parse s
      let m2 ← addHs m
      core m2 : Except ε MolecularComplexity) with
  | Except.ok r => of_result r
  | Except.error _ => nan_triple

/-- Embeds molecular_complexity, the string entry point, for given external
parse and hydrogen-addition collaborators: the core call inside the try
block is the (total) graph-level computation. -/
noncomputable def molecular_complexity {ε : Type} (parse : String → Except ε Mol)
    (addHs : Mol → Except ε Mol) (s : String) : MolecularComplexityF :=
  molecular_complexityGen parse addHs
    (fun m => Except.ok (calculate_molecular_complexity m)) s

/-- Well-formedness of a molecular graph: every neighbor index is the index
of an atom of the graph. -/
abbrev mWF (m : Mol) : Prop :=
  ∀ a ∈ m.atoms, ∀ j ∈ a.nbrs, j < m.atoms.length

/-- Well-formedness of a neighbor dictionary: neighbor lists are duplicate
free (a simple graph) and the neighbor relation is symmetric, every listed
neighbor being itself a key of the dictionary. -/
abbrev WFDict (n : AtomDict) : Prop :=
  ∀ pr ∈ n, pr.2.Nodup ∧
    ∀ b ∈ pr.2, (∃ q ∈ n, q.1 = b) ∧ pr.1 ∈ lookupD n b

/-- Consistent renumbering of a molecule by a permutation p of its indices:
the atom at new position i is the old atom at position p i, and each
neighbor index j is relabeled to the position of j inside p. -/
def applyPerm (p : List ℕ) (m : Mol) : Mol :=
  ⟨p.map (fun old =>
    let a := atomAt m old
    ⟨a.symbol, a.degree, a.hCount, a.nbrs.map (fun j => p.indexOf j)⟩)⟩

/-- Maximum of a list of reals (0 for the empty list, never used there). -/
def listMax : List ℝ → ℝ
  | [] => 0
  | x :: xs => xs.foldl max x

/-- Index-level reformulation of the per-atom path list, used to relate the
enumerations of a molecule and of its renumberings. -/
def pathsAt (m : Mol) (i : ℕ) : List AtomPath :=
  (nbrsAt m i).flatMap
    (fun j =>
      if symAt m j = "H" ∨ nbrsAt m j = [i] then
        [[typeAt m i, typeAt m j]]
      else
        ((nbrsAt m j).filter (fun k => k ≠ i)).map
          (fun k => [typeAt m i, typeAt m j, typeAt m k]))

/-- Per-atom complexity written after the wording of the specification
(section 4.5): a sum over the distinct path values, each contributing its
fractional occurrence times its base-2 log, negated, plus log2 of the path
count. -/
noncomputable def spec_CA {α : Type} [DecidableEq α] (paths : List α) : ℝ :=
  -(∑ v ∈ paths.toFinset,
      ((paths.count v : ℝ) / paths.length) *
        Real.logb 2 ((paths.count v : ℝ) / paths.length)) +
    Real.logb 2 paths.length

/-- Concrete fixture: a three-membered carbon ring (a cyclopropane skeleton
without explicit hydrogens). -/
def mol3ring : Mol :=
  ⟨[⟨"C", 2, 0, [1, 2]⟩, ⟨"C", 2, 0, [0, 2]⟩, ⟨"C", 2, 0, [0, 1]⟩]⟩

/-- Concrete fixture: a single disconnected carbon atom. -/
def mol1 : Mol := ⟨[⟨"C", 0, 0, []⟩]⟩

/-- Concrete fixture: the neighbor dictionary of one carbon-carbon bond. -/
def dict2 : AtomDict :=
  [((0, ("C", 1, 1)), [(1, ("C", 1, 1))]),
   ((1, ("C", 1, 1)), [(0, ("C", 1, 1))])]

theorem foldl_paths_eq (n : AtomDict) (a : Atom) (nbs : List Atom)
    (init : List AtomPath) :
    nbs.foldl
      (fun paths nb =>
        if nb.2.1 = "H" ∨ lookupD n nb = [a] then
          paths ++ [[a.2, nb.2]]
        else
          paths ++ ((lookupD n nb).filter (fun nb2 => nb2 ≠ a)).map
            (fun nb2 => [a.2, nb.2, nb2.2]))
      init = init ++ nbs.flatMap (spec_neighbor_emission n a) := by
  induction nbs generalizing init with
  | nil => simp
  | cons nb rest ih =>
    by_cases h : nb.2.1 = "H" ∨ lookupD n nb = [a]
    · simp only [List.foldl_cons, if_pos h, ih, List.flatMap_cons,
        spec_neighbor_emission, List.append_assoc]
    · simp only [List.foldl_cons, if_neg h, ih, List.flatMap_cons,
        spec_neighbor_emission, List.append_assoc]

theorem accumulate_paths_eq_flatMap (n : AtomDict) (a : Atom) (nbs : List Atom) :
    accumulate_paths n a nbs = nbs.flatMap (spec_neighbor_emission n a) := by
  simpa [accumulate_paths] using foldl_paths_eq n a nbs []

theorem mem_keysOf {α : Type} [DecidableEq α] (l : List α) (v : α) :
    v ∈ keysOf l ↔ v ∈ l := by
  induction l using keysOf.induct with
  | case1 => simp [keysOf]
  | case2 x xs ih =>
    simp only [keysOf]
    rw [List.mem_cons, List.mem_cons, ih, List.mem_filter]
    by_cases hv : v = x
    · simp [hv]
    · simp [hv]

theorem nodup_keysOf {α : Type} [DecidableEq α] (l : List α) :
    (keysOf l).Nodup := by
  induction l using keysOf.induct with
  | case1 => simp [keysOf]
  | case2 x xs ih =>
    simp only [keysOf, List.nodup_cons]
    refine ⟨fun hmem => ?_, ih⟩
    have := (mem_keysOf _ x).mp hmem
    simp [List.mem_filter] at this

theorem keysOf_toFinset {α : Type} [DecidableEq α] (l : List α) :
    (keysOf l).toFinset = l.toFinset := by
  ext v
  simp [List.mem_toFinset, mem_keysOf]

theorem sum_map_keysOf {α : Type} {M : Type} [AddCommMonoid M] [DecidableEq α]
    (l : List α) (f : α → M) :
    ((keysOf l).map f).sum = ∑ v ∈ l.toFinset, f v := by
  rw [← keysOf_toFinset l, List.sum_toFinset f (nodup_keysOf l)]

theorem fractional_occurrence_sum {α : Type} [DecidableEq α] (l : List α)
    (h : l ≠ []) : (fractional_occurrence l).sum = 1 := by
  have hlen : l.length ≠ 0 := by
    simpa [List.length_eq_zero] using h
  have h0 : (l.length : ℝ) ≠ 0 := Nat.cast_ne_zero.mpr hlen
  unfold fractional_occurrence
  rw [sum_map_keysOf, ← Finset.sum_div]
  have hc : ∑ v ∈ l.toFinset, (l.count v : ℝ) = (l.length : ℝ) := by
    rw [← Nat.cast_sum]
    exact_mod_cast congrArg Nat.cast (List.sum_toFinset_count_eq_length l)
  rw [hc, div_self h0]

theorem getD_map_of_lt {α β : Type} (f : α → β) (l : List α) (i : ℕ)
    (h : i < l.length) (d : β) (d2 : α) :
    (l.map f).getD i d = f (l.getD i d2) := by
  rw [List.getD_eq_getElem _ _ (by simpa using h), List.getD_eq_getElem _ _ h,
    List.getElem_map]

theorem getD_mem_of_lt {α : Type} (l : List α) (i : ℕ) (h : i < l.length)
    (d : α) : l.getD i d ∈ l := by
  rw [List.getD_eq_getElem _ _ h]
  exact List.getElem_mem h

theorem getD_range_of_lt (n i : ℕ) (h : i < n) (d : ℕ) :
    (List.range n).getD i d = i := by
  rw [List.getD_eq_getElem _ _ (by simpa using h)]
  simp

theorem range_map_getD {α : Type} (l : List α) (d : α) :
    (List.range l.length).map (fun i => l.getD i d) = l := by
  apply List.ext_getElem
  · simp
  · intro i h1 h2
    simp only [List.getElem_map, List.getElem_range]
    rw [List.getD_eq_getElem _ _ h2]

theorem indexOf_lt_of_mem (p : List ℕ) (j : ℕ) (h : j ∈ p) :
    p.indexOf j < p.length :=
  List.indexOf_lt_length.mpr h

theorem getD_indexOf_of_mem (p : List ℕ) (j : ℕ) (h : j ∈ p) (d : ℕ) :
    p.getD (p.indexOf j) d = j := by
  rw [List.getD_eq_getElem _ _ (indexOf_lt_of_mem p j h)]
  simpa using List.indexOf_get (indexOf_lt_of_mem p j h)

theorem indexOf_getD_of_nodup (p : List ℕ) (hnd : p.Nodup) (i : ℕ)
    (h : i < p.length) (d : ℕ) : p.indexOf (p.getD i d) = i := by
  rw [List.getD_eq_getElem _ _ h]
  simpa using List.get_indexOf hnd ⟨i, h⟩

theorem le_foldl_max (l : List ℝ) : ∀ a : ℝ, a ≤ l.foldl max a := by
  induction l with
  | nil => intro a; simp
  | cons y ys ih =>
    intro a
    exact le_trans (le_max_left a y) (ih (max a y))

theorem mem_le_foldl_max (l : List ℝ) : ∀ (a b : ℝ), b ∈ l → b ≤ l.foldl max a := by
  induction l with
  | nil => intro a b hb; cases hb
  | cons y ys ih =>
    intro a b hb
    rcases List.mem_cons.mp hb with rfl | hb
    · exact le_trans (le_max_right a b) (le_foldl_max ys (max a b))
    · exact ih (max a y) b hb

theorem foldl_max_mem (l : List ℝ) : ∀ a : ℝ, l.foldl max a ∈ a :: l := by
  induction l with
  | nil => intro a; simp
  | cons y ys ih =>
    intro a
    have h1 := ih (max a y)
    rcases List.mem_cons.mp h1 with h2 | h2
    · rcases max_choice a y with h3 | h3
      · rw [List.foldl_cons, h2, h3]
        exact List.mem_cons_self _ _
      · rw [List.foldl_cons, h2, h3]
        exact List.mem_cons_of_mem _ (List.mem_cons_self _ _)
    · exact List.mem_cons_of_mem _ (List.mem_cons_of_mem _ h2)

theorem listMax_mem (l : List ℝ) (h : l ≠ []) : listMax l ∈ l := by
  cases l with
  | nil => exact absurd rfl h
  | cons x xs => simpa [listMax] using foldl_max_mem xs x

theorem le_listMax (l : List ℝ) (b : ℝ) (hb : b ∈ l) : b ≤ listMax l := by
  cases l with
  | nil => cases hb
  | cons x xs =>
    rcases List.mem_cons.mp hb with rfl | hb
    · exact le_foldl_max xs b
    · exact mem_le_foldl_max xs x b hb

theorem ca_of_eq_spec_CA (P : List AtomPath) : ca_of P = spec_CA P := by
  unfold ca_of spec_CA fractional_occurrence
  rw [List.map_map, sum_map_keysOf]
  simp [Function.comp]

theorem atomsList_getD (m : Mol) (j : ℕ) (h : j < m.atoms.length) :
    (atomsList m).getD j (0, ("", 0, 0)) = (j, typeAt m j) := by
  unfold atomsList
  rw [getD_map_of_lt _ _ j (by simpa using h) _ 0, getD_range_of_lt _ _ h]

theorem typed_pair_eq_iff (m : Mol) (k i : ℕ) :
    ((k, typeAt m k) = (i, typeAt m i)) ↔ k = i := by
  constructor
  · intro h
    exact congrArg Prod.fst h
  · intro h
    subst h
    rfl

theorem nbrs_lt (m : Mol) (hm : mWF m) (i : ℕ) (hi : i < m.atoms.length) :
    ∀ j ∈ nbrsAt m i, j < m.atoms.length := by
  intro j hj
  exact hm (atomAt m i) (getD_mem_of_lt _ _ hi _) j hj

theorem find?_range_self (n j : ℕ) (h : j < n) :
    (List.range n).find? (fun i => decide (i = j)) = some j := by
  rcases hfind : (List.range n).find? (fun i => decide (i = j)) with _ | x
  · rw [List.find?_eq_none] at hfind
    exact absurd (by simp : decide (j = j) = true)
      (hfind j (List.mem_range.mpr h))
  · have hx := List.find?_some hfind
    simp only [decide_eq_true_eq] at hx
    rw [hx]

theorem find?_atomsList (m : Mol) (j : ℕ) (h : j < m.atoms.length)
    (p : Atom → Bool) (hp : ∀ i, p (i, typeAt m i) = decide (i = j)) :
    (atomsList m).find? p = some (j, typeAt m j) := by
  unfold atomsList
  rw [List.find?_map]
  have hq : (p ∘ fun i => (i, typeAt m i)) = fun i => decide (i = j) :=
    funext fun i => hp i
  rw [hq, find?_range_self _ _ h]
  rfl

theorem lookupD_neighborsMap (m : Mol) (j : ℕ) (h : j < m.atoms.length) :
    lookupD (neighborsMap m) (j, typeAt m j) =
      (nbrsAt m j).map (fun k => (atomsList m).getD k (0, ("", 0, 0))) := by
  unfold lookupD neighborsMap
  rw [List.find?_map]
  rw [find?_atomsList m j h _ ?hpred]
  case hpred =>
    intro i
    simp only [Function.comp_apply]
    rw [decide_eq_decide]
    exact typed_pair_eq_iff m i j
  rfl

theorem typed_map_eq_singleton (m : Mol) (l : List ℕ) (i : ℕ) :
    (l.map (fun k => (k, typeAt m k)) = [(i, typeAt m i)]) ↔ l = [i] := by
  cases l with
  | nil => simp
  | cons k t =>
    cases t with
    | nil => simp [typed_pair_eq_iff m k i]
    | cons k2 t2 => simp

theorem spec_emission_at (m : Mol) (hm : mWF m) (i j : ℕ)
    (hj : j < m.atoms.length) :
    spec_neighbor_emission (neighborsMap m) (i, typeAt m i) (j, typeAt m j) =
      (if symAt m j = "H" ∨ nbrsAt m j = [i] then
        [[typeAt m i, typeAt m j]]
      else
        ((nbrsAt m j).filter (fun k => k ≠ i)).map
          (fun k => [typeAt m i, typeAt m j, typeAt m k])) := by
  unfold spec_neighbor_emission
  have hlook : lookupD (neighborsMap m) (j, typeAt m j) =
      (nbrsAt m j).map (fun k => (k, typeAt m k)) := by
    rw [lookupD_neighborsMap m j hj]
    exact List.map_congr_left (fun k hk => atomsList_getD m k (nbrs_lt m hm j hj k hk))
  rw [hlook]
  have hcond : ((j, typeAt m j).2.1 = "H" ∨
      (nbrsAt m j).map (fun k => (k, typeAt m k)) = [(i, typeAt m i)]) ↔
      (symAt m j = "H" ∨ nbrsAt m j = [i]) := by
    apply or_congr Iff.rfl
    exact typed_map_eq_singleton m (nbrsAt m j) i
  have helse : (((nbrsAt m j).map (fun k => (k, typeAt m k))).filter
        (fun c => c ≠ (i, typeAt m i))).map
        (fun c => [(i, typeAt m i).2, (j, typeAt m j).2, c.2]) =
      ((nbrsAt m j).filter (fun k => k ≠ i)).map
        (fun k => [typeAt m i, typeAt m j, typeAt m k]) := by
    rw [List.filter_map, List.map_map]
    have hp : ((fun c : Atom => decide (c ≠ (i, typeAt m i))) ∘
        (fun k : ℕ => (k, typeAt m k))) = (fun k => decide (k ≠ i)) := by
      funext k
      simp only [Function.comp_apply, ne_eq]
      rw [decide_eq_decide]
      exact not_congr (typed_pair_eq_iff m k i)
    rw [hp]
    rfl
  rw [if_congr hcond rfl helse]

theorem non_h_items_neighborsMap (m : Mol) :
    non_h_items (neighborsMap m) =
      ((List.range m.atoms.length).filter (fun i => symAt m i ≠ "H")).map
        (fun i => ((i, typeAt m i), (nbrsAt m i).map
          (fun k => (atomsList m).getD k (0, ("", 0, 0))))) := by
  unfold non_h_items neighborsMap atomsList
  rw [List.map_map, List.filter_map]
  rfl

theorem accumulate_at (m : Mol) (hm : mWF m) (i : ℕ) (hi : i < m.atoms.length) :
    accumulate_paths (neighborsMap m) (i, typeAt m i)
      ((nbrsAt m i).map (fun k => (atomsList m).getD k (0, ("", 0, 0)))) =
      pathsAt m i := by
  rw [accumulate_paths_eq_flatMap]
  have h1 : (nbrsAt m i).map (fun k => (atomsList m).getD k (0, ("", 0, 0))) =
      (nbrsAt m i).map (fun k => (k, typeAt m k)) :=
    List.map_congr_left (fun k hk => atomsList_getD m k (nbrs_lt m hm i hi k hk))
  rw [h1, List.flatMap_map]
  unfold pathsAt
  apply List.flatMap_congr
  intro j hj
  exact spec_emission_at m hm i j (nbrs_lt m hm i hi j hj)

theorem atom_paths_of_eq_pathsAt (m : Mol) (hm : mWF m) :
    atom_paths_of m =
      ((List.range m.atoms.length).filter (fun i => symAt m i ≠ "H")).map
        (pathsAt m) := by
  unfold atom_paths_of collect_atom_paths
  rw [non_h_items_neighborsMap, List.map_map]
  apply List.map_congr_left
  intro i hi
  have hiLt : i < m.atoms.length := List.mem_range.mp (List.mem_filter.mp hi).1
  simp only [Function.comp_apply]
  exact accumulate_at m hm i hiLt

theorem applyPerm_atoms_length (p : List ℕ) (m : Mol) :
    (applyPerm p m).atoms.length = p.length := by
  simp [applyPerm]

theorem atomAt_applyPerm (p : List ℕ) (m : Mol) (i : ℕ) (hi : i < p.length) :
    atomAt (applyPerm p m) i =
      ⟨(atomAt m (p.getD i 0)).symbol, (atomAt m (p.getD i 0)).degree,
        (atomAt m (p.getD i 0)).hCount,
        (atomAt m (p.getD i 0)).nbrs.map (fun j => p.indexOf j)⟩ := by
  unfold atomAt applyPerm
  exact getD_map_of_lt _ p i hi _ 0

theorem symAt_applyPerm (p : List ℕ) (m : Mol) (i : ℕ) (hi : i < p.length) :
    symAt (applyPerm p m) i = symAt m (p.getD i 0) := by
  unfold symAt
  rw [atomAt_applyPerm p m i hi]

theorem typeAt_applyPerm (p : List ℕ) (m : Mol) (i : ℕ) (hi : i < p.length) :
    typeAt (applyPerm p m) i = typeAt m (p.getD i 0) := by
  unfold typeAt get_atom_type
  rw [atomAt_applyPerm p m i hi]

theorem nbrsAt_applyPerm (p : List ℕ) (m : Mol) (i : ℕ) (hi : i < p.length) :
    nbrsAt (applyPerm p m) i =
      (nbrsAt m (p.getD i 0)).map (fun j => p.indexOf j) := by
  unfold nbrsAt
  rw [atomAt_applyPerm p m i hi]

theorem pathsAt_applyPerm (m : Mol) (p : List ℕ) (hm : mWF m)
    (hp : p.Perm (List.range m.atoms.length)) (i : ℕ)
    (hi : i < m.atoms.length) :
    pathsAt (applyPerm p m) i = pathsAt m (p.getD i 0) := by
  have hlen : p.length = m.atoms.length := by simpa using hp.length_eq
  have hmem : ∀ j, j ∈ p ↔ j < m.atoms.length := fun j => by
    rw [hp.mem_iff, List.mem_range]
  have hnd : p.Nodup := hp.nodup_iff.mpr (List.nodup_range _)
  have hip : i < p.length := hlen ▸ hi
  have hgpi : p.getD i 0 < m.atoms.length :=
    (hmem _).mp (getD_mem_of_lt p i hip 0)
  have gpidx : ∀ k, k < m.atoms.length → p.getD (p.indexOf k) 0 = k :=
    fun k hk => getD_indexOf_of_mem p k ((hmem k).mpr hk) 0
  have idxlt : ∀ k, k < m.atoms.length → p.indexOf k < p.length :=
    fun k hk => indexOf_lt_of_mem p k ((hmem k).mpr hk)
  have idxgp : p.indexOf (p.getD i 0) = i :=
    indexOf_getD_of_nodup p hnd i hip 0
  have tA : ∀ k, k < m.atoms.length →
      typeAt (applyPerm p m) (p.indexOf k) = typeAt m k := fun k hk => by
    rw [typeAt_applyPerm p m _ (idxlt k hk), gpidx k hk]
  have hidx_iff : ∀ k, k < m.atoms.length →
      (p.indexOf k = i ↔ k = p.getD i 0) := by
    intro k hk
    constructor
    · intro h
      exact (gpidx k hk).symm.trans (by rw [h])
    · intro h
      rw [h]
      exact idxgp
  unfold pathsAt
  rw [nbrsAt_applyPerm p m i hip, List.flatMap_map]
  apply List.flatMap_congr
  intro j hj
  have hjn : j < m.atoms.length := nbrs_lt m hm _ hgpi j hj
  have e1 : symAt (applyPerm p m) (p.indexOf j) = symAt m j := by
    rw [symAt_applyPerm p m _ (idxlt j hjn), gpidx j hjn]
  have e4 : nbrsAt (applyPerm p m) (p.indexOf j) =
      (nbrsAt m j).map (fun k => p.indexOf k) := by
    rw [nbrsAt_applyPerm p m _ (idxlt j hjn), gpidx j hjn]
  have e5 : ((nbrsAt m j).map (fun k => p.indexOf k) = [i]) ↔
      (nbrsAt m j = [p.getD i 0]) := by
    cases hl : nbrsAt m j with
    | nil => simp
    | cons k t =>
      cases t with
      | nil =>
        have hk : k < m.atoms.length :=
          nbrs_lt m hm j hjn k (by rw [hl]; exact List.mem_cons_self _ _)
        simpa using hidx_iff k hk
      | cons k2 t2 => simp
  have hC : (symAt (applyPerm p m) (p.indexOf j) = "H" ∨
      nbrsAt (applyPerm p m) (p.indexOf j) = [i]) ↔
      (symAt m j = "H" ∨ nbrsAt m j = [p.getD i 0]) := by
    rw [e1, e4]
    exact or_congr Iff.rfl e5
  have hT : ([[typeAt (applyPerm p m) i, typeAt (applyPerm p m) (p.indexOf j)]] :
      List AtomPath) = [[typeAt m (p.getD i 0), typeAt m j]] := by
    rw [typeAt_applyPerm p m i hip, tA j hjn]
  have hE : ((nbrsAt (applyPerm p m) (p.indexOf j)).filter
        (fun k => k ≠ i)).map
        (fun k => [typeAt (applyPerm p m) i,
          typeAt (applyPerm p m) (p.indexOf j),
          typeAt (applyPerm p m) k]) =
      ((nbrsAt m j).filter (fun k => k ≠ p.getD i 0)).map
        (fun k => [typeAt m (p.getD i 0), typeAt m j, typeAt m k]) := by
    rw [e4, List.filter_map, List.map_map]
    have hfc : ∀ k ∈ nbrsAt m j,
        ((fun k => decide (k ≠ i)) ∘ (fun k => p.indexOf k)) k =
          decide (k ≠ p.getD i 0) := by
      intro k hk
      have hkn : k < m.atoms.length := nbrs_lt m hm j hjn k hk
      simp only [Function.comp_apply]
      rw [decide_eq_decide]
      exact not_congr (hidx_iff k hkn)
    rw [List.filter_congr hfc]
    apply List.map_congr_left
    intro k hk
    have hkn : k < m.atoms.length :=
      nbrs_lt m hm j hjn k (List.mem_filter.mp hk).1
    simp only [Function.comp_apply]
    rw [typeAt_applyPerm p m i hip, tA j hjn, tA k hkn]
  exact if_congr hC hT hE

theorem mWF_applyPerm (m : Mol) (p : List ℕ) (hm : mWF m)
    (hp : p.Perm (List.range m.atoms.length)) : mWF (applyPerm p m) := by
  intro a ha j hj
  have ha' : a ∈ p.map (fun old =>
      let s := atomAt m old
      (⟨s.symbol, s.degree, s.hCount, s.nbrs.map (fun j => p.indexOf j)⟩ :
        AtomSpec)) := ha
  obtain ⟨old, hold, rfl⟩ := List.mem_map.mp ha'
  obtain ⟨k, hk, rfl⟩ := List.mem_map.mp hj
  rw [applyPerm_atoms_length]
  apply indexOf_lt_of_mem
  have holdn : old < m.atoms.length := List.mem_range.mp (hp.subset hold)
  have hkn : k < m.atoms.length := nbrs_lt m hm old holdn k hk
  exact hp.mem_iff.mpr (List.mem_range.mpr hkn)

theorem atom_paths_of_applyPerm_perm (m : Mol) (p : List ℕ) (hm : mWF m)
    (hp : p.Perm (List.range m.atoms.length)) :
    (atom_paths_of (applyPerm p m)).Perm (atom_paths_of m) := by
  have hlen : p.length = m.atoms.length := by simpa using hp.length_eq
  have hn : (applyPerm p m).atoms.length = m.atoms.length := by
    rw [applyPerm_atoms_length, hlen]
  rw [atom_paths_of_eq_pathsAt (applyPerm p m) (mWF_applyPerm m p hm hp),
    atom_paths_of_eq_pathsAt m hm, hn]
  have hfc : ∀ i ∈ List.range m.atoms.length,
      (decide (symAt (applyPerm p m) i ≠ "H")) =
        (decide (symAt m (p.getD i 0) ≠ "H")) := by
    intro i hi
    rw [symAt_applyPerm p m i (hlen ▸ List.mem_range.mp hi)]
  rw [List.filter_congr hfc]
  have hmc : ∀ i ∈ (List.range m.atoms.length).filter
      (fun i => decide (symAt m (p.getD i 0) ≠ "H")),
      pathsAt (applyPerm p m) i = pathsAt m (p.getD i 0) := by
    intro i hi
    exact pathsAt_applyPerm m p hm hp i
      (List.mem_range.mp (List.mem_filter.mp hi).1)
  rw [List.map_congr_left hmc]
  have h2 : ((List.range m.atoms.length).filter
        (fun i => decide (symAt m (p.getD i 0) ≠ "H"))).map
        (fun i => pathsAt m (p.getD i 0)) =
      (p.filter (fun j => decide (symAt m j ≠ "H"))).map (pathsAt m) := by
    conv_rhs => rw [← range_map_getD p 0]
    rw [List.filter_map, List.map_map, hlen]
    rfl
  rw [h2]
  exact (hp.filter _).map _

theorem plogp_sum_perm {α : Type} [DecidableEq α] (l l' : List α)
    (h : l.Perm l') :
    ((fractional_occurrence l).map (fun q => q * Real.logb 2 q)).sum =
      ((fractional_occurrence l').map (fun q => q * Real.logb 2 q)).sum := by
  have hts : l.toFinset = l'.toFinset := by
    ext v
    simp [List.mem_toFinset, h.mem_iff]
  unfold fractional_occurrence
  rw [List.map_map, List.map_map, sum_map_keysOf, sum_map_keysOf, hts]
  apply Finset.sum_congr rfl
  intro v hv
  simp only [Function.comp_apply]
  rw [h.count_eq, h.length_eq]

theorem except_ok_bind {ε α β : Type} (a : α) (f : α → Except ε β) :
    ((Except.ok a : Except ε α) >>= f) = f a := rfl

theorem except_error_bind {ε α β : Type} (e : ε) (f : α → Except ε β) :
    ((Except.error e : Except ε α) >>= f) = Except.error e := rfl

theorem fractional_occurrence_nil {α : Type} [DecidableEq α] :
    fractional_occurrence ([] : List α) = [] := by
  unfold fractional_occurrence
  simp [keysOf]

theorem keysOf_all_eq {α : Type} [DecidableEq α] (a : α) (l : List α)
    (hne : l ≠ []) (hall : ∀ x ∈ l, x = a) : keysOf l = [a] := by
  cases l with
  | nil => exact absurd rfl hne
  | cons x xs =>
    have hx : x = a := hall x (List.mem_cons_self _ _)
    subst hx
    have hfil : xs.filter (fun y => y ≠ x) = [] := by
      rw [List.filter_eq_nil_iff]
      intro b hb
      have hb' : b = x := hall b (List.mem_cons_of_mem _ hb)
      simp [hb']
    simp only [keysOf, hfil]

theorem fractional_occurrence_all_eq {α : Type} [DecidableEq α] (l : List α)
    (a : α) (hne : l ≠ []) (hall : ∀ x ∈ l, x = a) :
    fractional_occurrence l = [1] := by
  unfold fractional_occurrence
  rw [keysOf_all_eq a l hne hall, List.map_cons, List.map_nil]
  have hcount : l.count a = l.length :=
    List.count_eq_length.mpr (fun b hb => (hall b hb).symm)
  have hlen : (l.length : ℝ) ≠ 0 :=
    Nat.cast_ne_zero.mpr (by simpa [List.length_eq_zero] using hne)
  rw [hcount, div_self hlen]

theorem spec_neighbor_emission_ne_nil (n : AtomDict) (hwf : WFDict n)
    (a : Atom) (nbs : List Atom) (hmem : (a, nbs) ∈ n) (nb : Atom)
    (hnb : nb ∈ nbs) : spec_neighbor_emission n a nb ≠ [] := by
  unfold spec_neighbor_emission
  by_cases hc : nb.2.1 = "H" ∨ lookupD n nb = [a]
  · rw [if_pos hc]
    simp
  · rw [if_neg hc]
    push_neg at hc
    obtain ⟨hnd_a, hsym⟩ := hwf (a, nbs) hmem
    obtain ⟨⟨q, hq, hq1⟩, hain⟩ := hsym nb hnb
    have hlnodup : (lookupD n nb).Nodup := by
      unfold lookupD
      rcases hf : n.find? (fun pr => pr.1 = nb) with _ | pr
      · rw [hf]
        simp
      · rw [hf]
        exact (hwf pr (List.mem_of_find?_eq_some hf)).1
    intro hcontra
    have hfil : (lookupD n nb).filter (fun c => c ≠ a) = [] :=
      List.map_eq_nil_iff.mp hcontra
    have hallA : ∀ c ∈ lookupD n nb, c = a := by
      intro c hcmem
      have := List.filter_eq_nil_iff.mp hfil c hcmem
      simpa using this
    apply hc.2
    cases hl : lookupD n nb with
    | nil =>
      rw [hl] at hain
      cases hain
    | cons x t =>
      have hx : x = a := hallA x (by rw [hl]; exact List.mem_cons_self _ _)
      cases t with
      | nil => rw [hx]
      | cons y t2 =>
        have hy : y = a := hallA y (by rw [hl]; simp)
        rw [hl] at hlnodup
        have hxy : x ≠ y := by
          intro h
          exact (List.nodup_cons.mp hlnodup).1 (h ▸ List.mem_cons_self _ _)
        exact absurd (hx.trans hy.symm) hxy

theorem sortPaths_ne_nil (l : List AtomPath) (h : l ≠ []) :
    sortPaths l ≠ [] := by
  intro hs
  apply h
  have hlen := congrArg List.length hs
  rw [sortPaths, List.length_insertionSort] at hlen
  exact List.length_eq_zero.mp hlen

theorem atom_paths_of_all_H (m : Mol) (hH : ∀ a ∈ m.atoms, a.symbol = "H") :
    atom_paths_of m = [] := by
  unfold atom_paths_of collect_atom_paths
  have hnil : non_h_items (neighborsMap m) = [] := by
    unfold non_h_items
    rw [List.filter_eq_nil_iff]
    intro pr hpr
    obtain ⟨aa, haa, rfl⟩ := List.mem_map.mp hpr
    obtain ⟨i, hi, rfl⟩ := List.mem_map.mp haa
    have hiLt : i < m.atoms.length := List.mem_range.mp hi
    have hsym : (atomAt m i).symbol = "H" :=
      hH (atomAt m i) (getD_mem_of_lt _ _ hiLt _)
    simp [typeAt, get_atom_type, hsym]
  rw [hnil]
  rfl

/-- C1: for every non-hydrogen atom A of the neighbor map and every neighbor
B of A in map order, the enumerator emits exactly the single length-2 path
(type A, type B) when B is a hydrogen or when the only reported neighbor of
B is A itself, and otherwise exactly one length-3 path (type A, type B,
type C) for every neighbor C of B distinct from A, and nothing else: the
collected per-atom path list is precisely the concatenation of these
per-neighbor emissions. -/
theorem C1_path_enumeration (neighbors : AtomDict) :
    collect_atom_paths neighbors =
      (non_h_items neighbors).map
        (fun pr => pr.2.flatMap (spec_neighbor_emission neighbors pr.1)) := by
  unfold collect_atom_paths
  exact List.map_congr_left
    (fun pr _ => accumulate_paths_eq_flatMap neighbors pr.1 pr.2)

/-- C2: for every non-hydrogen atom with a non-empty path list, the per-atom
score equals the specification formula CA = minus the sum of p log2 p over
the distinct-path distribution plus log2 of the path count, and the CM
component returned by the graph-level entry point is the sum of these CA
values over all non-hydrogen atoms. -/
theorem C2_cm_is_sum_of_ca (m : Mol)
    (h : ∀ P ∈ atom_paths_of m, P ≠ []) :
    (∀ P ∈ atom_paths_of m, ca_of P = spec_CA P) ∧
      (calculate_molecular_complexity m).cm =
        ((atom_paths_of m).map spec_CA).sum := by
  constructor
  · intro P _
    exact ca_of_eq_spec_CA P
  · show cm_of m = _
    unfold cm_of cas_of
    rw [List.map_congr_left (fun P _ => ca_of_eq_spec_CA P)]

theorem C2_witness :
    (∀ P ∈ atom_paths_of mol3ring, P ≠ []) ∧
      (calculate_molecular_complexity mol3ring).cm =
        ((atom_paths_of mol3ring).map spec_CA).sum :=
  ⟨by decide, (C2_cm_is_sum_of_ca mol3ring (by decide)).2⟩

/-- C4: for every non-empty list, fractional_occurrence returns one fraction
per distinct value (the distinct values being exactly the members, listed
without duplicates), each fraction being count over length, and the
fractions sum to one exactly. -/
theorem C4_fractional_occurrence_contract {α : Type} [DecidableEq α]
    (l : List α) (h : l ≠ []) :
    fractional_occurrence l =
      (keysOf l).map (fun k => (l.count k : ℝ) / l.length) ∧
    (keysOf l).Nodup ∧ (∀ v, v ∈ keysOf l ↔ v ∈ l) ∧
    (fractional_occurrence l).sum = 1 :=
  ⟨rfl, nodup_keysOf l, mem_keysOf l, fractional_occurrence_sum l h⟩

theorem C4_witness :
    ([0, 1, 1] : List ℕ) ≠ [] ∧
      (fractional_occurrence ([0, 1, 1] : List ℕ)).sum = 1 :=
  ⟨by decide, (C4_fractional_occurrence_contract [0, 1, 1] (by decide)).2.2.2⟩

/-- C5: at the string entry point, a failure of the external parse step or
of the hydrogen-addition step is caught and mapped to the triple whose
three components are all NaN, while a success of both steps returns the
graph-level result unchanged. -/
theorem C5_nan_on_collaborator_failure {ε : Type}
    (parse : String → Except ε Mol) (addHs : Mol → Except ε Mol)
    (s : String) :
    (∀ e, parse s = Except.error e →
      molecular_complexity parse addHs s = nan_triple) ∧
    (∀ m e, parse s = Except.ok m → addHs m = Except.error e →
      molecular_complexity parse addHs s = nan_triple) ∧
    (∀ m m2, parse s = Except.ok m → addHs m = Except.ok m2 →
      molecular_complexity parse addHs s =
        of_result (calculate_molecular_complexity m2)) := by
  refine ⟨?_, ?_, ?_⟩
  · intro e h1
    unfold molecular_complexity molecular_complexityGen
    rw [h1, except_error_bind]
  · intro m e h1 h2
    unfold molecular_complexity molecular_complexityGen
    rw [h1, except_ok_bind, h2, except_error_bind]
  · intro m m2 h1 h2
    unfold molecular_complexity molecular_complexityGen
    rw [h1, except_ok_bind, h2, except_ok_bind]

theorem C5_witness :
    molecular_complexity (fun _ : String => (Except.error () : Except Unit Mol))
      (fun mm => Except.ok mm) "CCO" = nan_triple :=
  (C5_nan_on_collaborator_failure _ _ "CCO").1 () rfl

/-- C9: the string entry point is the generalized handler applied to the
total core, and in the generalized form, where every stage including the
core computation may fail, every failure of any stage is caught and mapped
to the NaN triple: for every input the result is either the NaN triple or
the successful core output, so no error value ever escapes. -/
theorem C9_catch_all {ε : Type} (parse : String → Except ε Mol)
    (addHs : Mol → Except ε Mol) (core : Mol → Except ε MolecularComplexity)
    (s : String) :
    (molecular_complexity parse addHs s =
      molecular_complexityGen parse addHs
        (fun m => Except.ok (calculate_molecular_complexity m)) s) ∧
    (∀ m m2 e, parse s = Except.ok m → addHs m = Except.ok m2 →
      core m2 = Except.error e →
      molecular_complexityGen parse addHs core s = nan_triple) ∧
    (molecular_complexityGen parse addHs core s = nan_triple ∨
      ∃ m m2 r, parse s = Except.ok m ∧ addHs m = Except.ok m2 ∧
        core m2 = Except.ok r ∧
        molecular_complexityGen parse addHs core s = of_result r) := by
  refine ⟨rfl, ?_, ?_⟩
  · intro m m2 e h1 h2 h3
    unfold molecular_complexityGen
    rw [h1, except_ok_bind, h2, except_ok_bind, h3]
  · rcases h1 : parse s with e | m
    · left
      unfold molecular_complexityGen
      rw [h1, except_error_bind]
    · rcases h2 : addHs m with e | m2
      · left
        unfold molecular_complexityGen
        rw [h1, except_ok_bind, h2, except_error_bind]
      · rcases h3 : core m2 with e | r
        · left
          unfold molecular_complexityGen
          rw [h1, except_ok_bind, h2, except_ok_bind, h3]
        · right
          refine ⟨m, m2, r, rfl, h2, h3, ?_⟩
          unfold molecular_complexityGen
          rw [h1, except_ok_bind, h2, except_ok_bind, h3]

theorem C9_witness :
    molecular_complexityGen (fun _ : String => Except.ok mol1)
      (fun mm => Except.ok mm)
      (fun _ => (Except.error () : Except Unit MolecularComplexity)) "C" =
      nan_triple :=
  (C9_catch_all _ _ _ "C").2.1 mol1 mol1 () rfl rfl rfl

/-- C6: whenever all non-hydrogen atoms of a molecule have the same
canonical atom environment (the ascending-sorted tuple of their paths), the
Cse component returned by the graph-level entry point equals zero. -/
theorem C6_cse_zero_when_symmetric (m : Mol)
    (h : ∀ e ∈ atom_environments_of m, ∀ e2 ∈ atom_environments_of m,
      e = e2) :
    (calculate_molecular_complexity m).cse = 0 := by
  show cse_of m = 0
  unfold cse_of
  cases henv : atom_environments_of m with
  | nil =>
    rw [fractional_occurrence_nil]
    simp
  | cons e rest =>
    rw [henv] at h
    have hall : ∀ x ∈ e :: rest, x = e := by
      intro x hx
      exact h x hx e (List.mem_cons_self _ _)
    rw [fractional_occurrence_all_eq (e :: rest) e (by simp) hall]
    simp [Real.logb_one]

theorem C6_witness : (calculate_molecular_complexity mol1).cse = 0 :=
  C6_cse_zero_when_symmetric mol1 (by decide)

/-- C7: consistently renumbering the atoms of a well-formed graph by any
permutation of its indices, relabeling the neighbor lists accordingly,
leaves the whole result of the graph-level entry point (CM, CM star and
Cse) unchanged. -/
theorem C7_permutation_invariance (m : Mol) (p : List ℕ)
    (hp : p.Perm (List.range m.atoms.length)) (hm : mWF m) :
    calculate_molecular_complexity (applyPerm p m) =
      calculate_molecular_complexity m := by
  have hperm := atom_paths_of_applyPerm_perm m p hm hp
  have hcm : cm_of (applyPerm p m) = cm_of m := by
    unfold cm_of cas_of
    exact (hperm.map ca_of).sum_eq
  have hstar : cm_star_of (applyPerm p m) = cm_star_of m := by
    unfold cm_star_of cas_of
    rw [List.map_map, List.map_map]
    exact congrArg (Real.logb 2) ((hperm.map _).sum_eq)
  have hcse : cse_of (applyPerm p m) = cse_of m := by
    unfold cse_of atom_environments_of
    exact congrArg Neg.neg (plogp_sum_perm _ _ (hperm.map sortPaths))
  unfold calculate_molecular_complexity
  rw [hcm, hstar, hcse]

theorem C7_witness :
    calculate_molecular_complexity (applyPerm [2, 0, 1] mol3ring) =
      calculate_molecular_complexity mol3ring :=
  C7_permutation_invariance mol3ring [2, 0, 1] (by decide) (by decide)

/-- C8: in a well-formed neighbor dictionary (duplicate-free neighbor lists,
symmetric adjacency with every neighbor itself a key), every non-hydrogen
atom that has at least one neighbor gets a non-empty path list from the
enumerator, hence also a non-empty sorted atom environment, and that path
list is one of the entries of the collected output. -/
theorem C8_nonempty_paths (n : AtomDict) (hwf : WFDict n) (a : Atom)
    (nbs : List Atom) (hmem : (a, nbs) ∈ n) (hH : a.2.1 ≠ "H")
    (hne : nbs ≠ []) :
    accumulate_paths n a nbs ≠ [] ∧
    sortPaths (accumulate_paths n a nbs) ≠ [] ∧
    accumulate_paths n a nbs ∈ collect_atom_paths n := by
  have h1 : accumulate_paths n a nbs ≠ [] := by
    rw [accumulate_paths_eq_flatMap]
    cases hc : nbs with
    | nil => exact absurd hc hne
    | cons nb rest =>
      rw [List.flatMap_cons]
      intro hcontra
      have hemp := (List.append_eq_nil.mp hcontra).1
      exact spec_neighbor_emission_ne_nil n hwf a nbs hmem nb
        (by rw [hc]; exact List.mem_cons_self _ _) hemp
  refine ⟨h1, sortPaths_ne_nil _ h1, ?_⟩
  unfold collect_atom_paths
  exact List.mem_map.mpr ⟨(a, nbs),
    List.mem_filter.mpr ⟨hmem, by simpa using hH⟩, rfl⟩

theorem C8_witness :
    accumulate_paths dict2 (0, ("C", 1, 1)) [(1, ("C", 1, 1))] ≠ [] ∧
    sortPaths (accumulate_paths dict2 (0, ("C", 1, 1)) [(1, ("C", 1, 1))]) ≠ [] ∧
    accumulate_paths dict2 (0, ("C", 1, 1)) [(1, ("C", 1, 1))] ∈
      collect_atom_paths dict2 :=
  C8_nonempty_paths dict2 (by decide) (0, ("C", 1, 1)) [(1, ("C", 1, 1))]
    (by decide) (by decide) (by decide)

/-- C10: fractional_occurrence of the empty sequence is the empty
distribution, whose sum is zero rather than one, and on a graph with no
non-hydrogen atoms the graph-level entry point yields an empty path list,
CM equal to zero, a CM star equal to the base-2 log of a zero sum (the
real-number rendering of minus infinity) and a Cse equal to minus zero. -/
theorem C10_no_heavy_atoms :
    (fractional_occurrence ([] : List (List AtomPath)) = [] ∧
      (fractional_occurrence ([] : List (List AtomPath))).sum = 0) ∧
    ∀ m : Mol, (∀ a ∈ m.atoms, a.symbol = "H") →
      atom_paths_of m = [] ∧
      (calculate_molecular_complexity m).cm = 0 ∧
      (calculate_molecular_complexity m).cm_star = Real.logb 2 0 ∧
      (calculate_molecular_complexity m).cse = -(0 : ℝ) := by
  refine ⟨⟨fractional_occurrence_nil, by rw [fractional_occurrence_nil]; rfl⟩, ?_⟩
  intro m hH
  have h0 : atom_paths_of m = [] := atom_paths_of_all_H m hH
  refine ⟨h0, ?_, ?_, ?_⟩
  · show cm_of m = 0
    unfold cm_of cas_of
    rw [h0]
    rfl
  · show cm_star_of m = Real.logb 2 0
    unfold cm_star_of cas_of
    rw [h0]
    rfl
  · show cse_of m = -(0 : ℝ)
    unfold cse_of atom_environments_of
    rw [h0]
    rw [show (([] : List (List AtomPath)).map sortPaths) = [] from rfl,
      fractional_occurrence_nil]
    rfl

theorem C10_witness :
    atom_paths_of (⟨[]⟩ : Mol) = [] ∧
    (calculate_molecular_complexity (⟨[]⟩ : Mol)).cm = 0 ∧
    (calculate_molecular_complexity (⟨[]⟩ : Mol)).cm_star = Real.logb 2 0 ∧
    (calculate_molecular_complexity (⟨[]⟩ : Mol)).cse = -(0 : ℝ) :=
  C10_no_heavy_atoms.2 ⟨[]⟩ (by simp)

/-- C3: for a molecule with at least one non-hydrogen atom, each with at
least one path, the CM star component equals the base-2 log of the sum of 2
to the per-atom scores, and it lies between the largest per-atom score and
that score plus the base-2 log of the number of non-hydrogen atoms. -/
theorem C3_cm_star_log_sum_exp (m : Mol) (h1 : atom_paths_of m ≠ [])
    (h2 : ∀ P ∈ atom_paths_of m, P ≠ []) :
    (calculate_molecular_complexity m).cm_star =
      Real.logb 2 (((atom_paths_of m).map (fun P => (2 : ℝ) ^ spec_CA P)).sum) ∧
    listMax (cas_of m) ≤ (calculate_molecular_complexity m).cm_star ∧
    (calculate_molecular_complexity m).cm_star ≤
      listMax (cas_of m) + Real.logb 2 ((atom_paths_of m).length) := by
  have hcas_ne : cas_of m ≠ [] := by
    intro hcon
    exact h1 (List.map_eq_nil_iff.mp hcon)
  have hmaxmem : listMax (cas_of m) ∈ cas_of m := listMax_mem _ hcas_ne
  have hpow_mem : (2 : ℝ) ^ listMax (cas_of m) ∈
      (cas_of m).map (fun c => (2 : ℝ) ^ c) :=
    List.mem_map_of_mem _ hmaxmem
  have hpos : ∀ x ∈ (cas_of m).map (fun c => (2 : ℝ) ^ c), 0 ≤ x := by
    intro x hx
    obtain ⟨c, _, rfl⟩ := List.mem_map.mp hx
    exact (Real.rpow_pos_of_pos two_pos c).le
  have hS_ge : (2 : ℝ) ^ listMax (cas_of m) ≤
      ((cas_of m).map (fun c => (2 : ℝ) ^ c)).sum :=
    List.single_le_sum hpos _ hpow_mem
  have hSpos : 0 < ((cas_of m).map (fun c => (2 : ℝ) ^ c)).sum :=
    lt_of_lt_of_le (Real.rpow_pos_of_pos two_pos _) hS_ge
  refine ⟨?_, ?_, ?_⟩
  · show cm_star_of m = _
    unfold cm_star_of cas_of
    rw [List.map_map]
    congr 2
    apply List.map_congr_left
    intro P _
    simp only [Function.comp_apply]
    rw [ca_of_eq_spec_CA]
  · show listMax (cas_of m) ≤ cm_star_of m
    have hlog := Real.logb_le_logb_of_le one_lt_two
      (Real.rpow_pos_of_pos two_pos (listMax (cas_of m))) hS_ge
    rw [Real.logb_rpow (by norm_num) (by norm_num)] at hlog
    exact hlog
  · show cm_star_of m ≤ _
    have hub_each : ∀ x ∈ (cas_of m).map (fun c => (2 : ℝ) ^ c),
        x ≤ (2 : ℝ) ^ listMax (cas_of m) := by
      intro x hx
      obtain ⟨c, hc, rfl⟩ := List.mem_map.mp hx
      exact Real.rpow_le_rpow_of_exponent_le one_le_two (le_listMax _ c hc)
    have hS_le := List.sum_le_card_nsmul
      ((cas_of m).map (fun c => (2 : ℝ) ^ c)) _ hub_each
    rw [nsmul_eq_mul] at hS_le
    have hlen_eq : ((cas_of m).map (fun c => (2 : ℝ) ^ c)).length =
        (atom_paths_of m).length := by
      simp [cas_of]
    rw [hlen_eq] at hS_le
    have hlen_ne : ((atom_paths_of m).length : ℝ) ≠ 0 :=
      Nat.cast_ne_zero.mpr (List.length_pos.mpr h1).ne'
    have hmono := Real.logb_le_logb_of_le one_lt_two hSpos hS_le
    rw [Real.logb_mul hlen_ne
        (ne_of_gt (Real.rpow_pos_of_pos two_pos (listMax (cas_of m)))),
      @Real.logb_rpow 2 (listMax (cas_of m)) (by norm_num) (by norm_num)]
      at hmono
    unfold cm_star_of
    linarith [hmono]

theorem C3_witness :
    listMax (cas_of mol3ring) ≤
      (calculate_molecular_complexity mol3ring).cm_star ∧
    (calculate_molecular_complexity mol3ring).cm_star ≤
      listMax (cas_of mol3ring) +
        Real.logb 2 ((atom_paths_of mol3ring).length) :=
  (C3_cm_star_log_sum_exp mol3ring (by decide) (by decide)).2
